import Mathlib

/-!
Verification of the ingredient/recipe matching and normalization core of the
cookbook repository (`scripts/db_operations.py`, `scripts/config_loader.py`,
`cli.py`).  The Python string primitives (`str.lower`, `str.strip`,
`str.split`, `','.join`) are embedded as executable functions on `List Char`,
and the external collaborators (the pyspellchecker dictionary, the spaCy
lemmatizer, the inflect engine and the rapidfuzz scorers) are modelled as
explicit parameters of a `NormEnv` environment, so every configuration of the
real system corresponds to one environment value.
-/

deriving instance DecidableEq for Except

namespace Cookbook

/-- Python `str.lower()`: lowercase every character. -/
def pyLower (s : String) : String := ⟨s.toList.map Char.toLower⟩

/-- Whitespace strip on a character list, from both ends (Python `str.strip()`). -/
def stripCore (l : List Char) : List Char :=
  ((l.dropWhile Char.isWhitespace).reverse.dropWhile Char.isWhitespace).reverse

/-- Python `str.strip()`. -/
def pyStrip (s : String) : String := ⟨stripCore s.toList⟩

/-- Split a character list on runs of whitespace, dropping empty chunks
(Python `str.split()` with no argument). -/
def splitWsCore : List Char → List (List Char)
  | [] => []
  | [c] => if c.isWhitespace then [] else [[c]]
  | c :: d :: cs =>
    if c.isWhitespace then splitWsCore (d :: cs)
    else
      if d.isWhitespace then [c] :: splitWsCore (d :: cs)
      else
        match splitWsCore (d :: cs) with
        | [] => [[c]]
        | t :: ts => (c :: t) :: ts

/-- Python `str.split()` on a string. -/
def pySplit (s : String) : List String := (splitWsCore s.toList).map (⟨·⟩)

/-- Split on commas keeping empty chunks (Python `s.split(',')`). -/
def splitCommaCore : List Char → List (List Char)
  | [] => [[]]
  | c :: cs =>
    if c = ',' then [] :: splitCommaCore cs
    else
      match splitCommaCore cs with
      | [] => [[c]]
      | t :: ts => (c :: t) :: ts

/-- Join character lists with a single space (Python `' '.join`). -/
def joinChars : List (List Char) → List Char
  | [] => []
  | [t] => t
  | t :: t2 :: ts => t ++ ' ' :: joinChars (t2 :: ts)

/-- Join strings with single spaces (Python `' '.join`). -/
def joinWords (l : List String) : String := ⟨joinChars (l.map String.toList)⟩

/-- Stable descending insertion: the new element is placed after every element
whose key is at least as large, matching the stability of Python
`list.sort(key=..., reverse=True)`. -/
def insertByDesc {α β : Type} [LinearOrder β] (key : α → β) (x : α) :
    List α → List α
  | [] => [x]
  | y :: ys => if key y < key x then x :: y :: ys else y :: insertByDesc key x ys

/-- Stable sort by a key, descending (Python `list.sort(key=..., reverse=True)`). -/
def sortByDesc {α β : Type} [LinearOrder β] (key : α → β) (l : List α) : List α :=
  l.foldl (fun acc x => insertByDesc key x acc) []

/-- Length of a longest common subsequence of two character lists, with a fuel
argument that makes the recursion structural; `a.length + b.length` fuel is
always sufficient. -/
def lcsFuel : Nat → List Char → List Char → Nat
  | _, [], _ => 0
  | _, _, [] => 0
  | 0, _, _ => 0
  | fuel + 1, a :: as, b :: bs =>
    if a = b then 1 + lcsFuel fuel as bs
    else max (lcsFuel fuel (a :: as) bs) (lcsFuel fuel as (b :: bs))

/-- Length of a longest common subsequence of two character lists. -/
def lcsLen (a b : List Char) : Nat := lcsFuel (a.length + b.length) a b

/-- The rapidfuzz `fuzz.ratio` similarity: normalized InDel similarity scaled
to [0, 100], as a rational.  `fuzz.ratio(a, b) = 100 * 2 * lcs / (|a| + |b|)`,
and 100 on two empty strings. -/
def fuzzSim (a b : String) : ℚ :=
  if a.toList.length + b.toList.length = 0 then 100
  else (100 * 2 * lcsLen a.toList b.toList : ℚ) / (a.toList.length + b.toList.length)

/-- The apostrophe character, written by code point. -/
def apos : Char := Char.ofNat 39

/-- Python `"'" in c`: the candidate contains an apostrophe (possessive form). -/
def hasApos (s : String) : Bool := s.toList.contains apos

/-- Python `c.endswith("'s")`. -/
def endsAposS (s : String) : Bool :=
  match s.toList.reverse with
  | 's' :: c :: _ => c = apos
  | _ => false

/-- Python `c[:-2]`: drop the last two characters. -/
def dropLast2 (s : String) : String := ⟨s.toList.dropLast.dropLast⟩

/-- The environment of external collaborators used by `singularize_word` in
`scripts/db_operations.py`: the pyspellchecker dictionary and suggestion
function, the `fuzz.ratio` scorer, the configured threshold
(`config_loader.get_similarity_threshold`, default 70), the spaCy lemmatizer
(`none` models spaCy being unavailable or producing no token) and the inflect
engine (`inflectSingular w = none` models `singular_noun` returning `False`).
An unavailable spell checker is the environment with `dict = []` and
`candidates _ = []`. -/
structure NormEnv where
  dict : List String
  candidates : String → List String
  sim : String → String → ℚ
  threshold : ℚ
  spacyLemma : String → Option String
  inflectSingular : String → Option String

/-- Words that are never lemmatized (`NO_LEMMATIZE_WHITELIST` in
`scripts/db_operations.py`). -/
def NO_LEMMATIZE_WHITELIST : List String :=
  ["whipping", "beating", "cooking", "roasting"]

/-- Candidate scoring in `singularize_word`: each spelling candidate is scored
by `fuzz.ratio` plus a bonus of 5 for non-possessive forms, then stably sorted
by score descending (`scored_candidates.sort(key=lambda x: x[1], reverse=True)`). -/
def scoreCands (env : NormEnv) (word : String) (cands : List String) :
    List (String × ℚ) :=
  sortByDesc Prod.snd
    (cands.map (fun c => (c, env.sim word c + (if hasApos c then 0 else 5))))

/-- The spell-correction stage of `singularize_word`
(`scripts/db_operations.py` lines 117-154): a word not in the dictionary is
replaced by the top-scored candidate when the top post-bonus score reaches the
threshold, stripping a possessive ending when the stripped form is a
dictionary word; the `(original, corrected)` pair is recorded. -/
def corrStep (env : NormEnv) (word : String) : String × List (String × String) :=
  if word ∈ env.dict then (word, [])
  else if env.candidates word = [] then (word, [])
  else
    match scoreCands env word (env.candidates word) with
    | [] => (word, [])
    | (c, s) :: _ =>
      if env.threshold ≤ s then
        if endsAposS c ∧ dropLast2 c ∈ env.dict then
          (dropLast2 c, [(word, dropLast2 c)])
        else (c, [(word, c)])
      else (word, [])

/-- The spaCy lemmatization stage of `singularize_word`
(`scripts/db_operations.py` lines 163-180): a lemma is accepted when it is
nonempty, different from the word, at most two characters longer, and (when
the word is itself a dictionary word) also a dictionary word; `none` falls
through to the inflect stage. -/
def lemmaStage (env : NormEnv) (word : String) : Option String :=
  match env.spacyLemma word with
  | some l =>
    if l ≠ "" ∧ l ≠ word ∧ l.length ≤ word.length + 2 then
      if word ∈ env.dict then (if l ∈ env.dict then some l else none)
      else some l
    else none
  | none => none

/-- The whitelist / lemmatization / inflect stages of `singularize_word`,
applied to the (possibly corrected) word: whitelisted words are returned
as-is; an accepted spaCy lemma is returned; otherwise the inflect
`singular_noun` result is used unless the word is a dictionary word whose
singular form is not. -/
def postCorr (env : NormEnv) (word : String) : String :=
  if word ∈ NO_LEMMATIZE_WHITELIST then word
  else
    match lemmaStage env word with
    | some l => l
    | none =>
      match env.inflectSingular word with
      | some sg => if word ∈ env.dict ∧ sg ∉ env.dict then word else sg
      | none => word

/-- `singularize_word` from `scripts/db_operations.py`: strip and lowercase,
optionally spell-correct, then singularize. -/
def singularize_word (env : NormEnv) (word : String) (check_spelling : Bool) :
    String × List (String × String) :=
  if word = "" then (word, [])
  else
    let w := pyLower (pyStrip word)
    let p := if check_spelling then corrStep env w else (w, [])
    (postCorr env p.1, p.2)

/-- `normalize_name` from `scripts/db_operations.py`: lowercase and strip the
whole name, split into words, run `singularize_word` on each, and rejoin with
single spaces, collecting all corrections. -/
def normalize_name (env : NormEnv) (name : String) (check_spelling : Bool) :
    String × List (String × String) :=
  if name = "" then (name, [])
  else
    let words := pySplit (pyStrip (pyLower name))
    let results := words.map (fun w => singularize_word env w check_spelling)
    (joinWords (results.map Prod.fst), (results.map Prod.snd).flatten)

/-- The database state visible to the ingredient write operations: the
ingredient table as `(id, canonical name)` rows and the ingredient-type table
as lowercase names.  Notes, aliases and tags never interact with name
uniqueness and are omitted. -/
structure DBState where
  ingredients : List (Nat × String)
  types : List String
  nextId : Nat
deriving DecidableEq

/-- `get_or_create_ingredient_type` from `scripts/db_operations.py`: looks up
the type by `type_name.lower()` (no strip, no spell-check, no
singularization) and inserts that lowercased name when absent.  Returns the
new table and the name of the row used. -/
def get_or_create_ingredient_type (types : List String) (type_name : String) :
    List String × String :=
  match types.find? (fun t => t == pyLower type_name) with
  | some t => (types, t)
  | none => (types ++ [pyLower type_name], pyLower type_name)

/-- `add_ingredient` from `scripts/db_operations.py`: normalize the name,
get-or-create the type, raise when an ingredient with the same normalized
name exists, otherwise insert the normalized name. -/
def add_ingredient (env : NormEnv) (st : DBState) (name : String)
    (type_name : String) : Except String DBState :=
  match st.ingredients.find? (fun p => p.2 == (normalize_name env name true).1) with
  | some existing =>
    .error ("Ingredient " ++ name ++ " already exists (as " ++ existing.2 ++ ")")
  | none =>
    .ok { ingredients :=
            st.ingredients ++ [(st.nextId, (normalize_name env name true).1)],
          types := (get_or_create_ingredient_type st.types type_name).1,
          nextId := st.nextId + 1 }

/-- The name-updating path of `update_ingredient` from
`scripts/db_operations.py`: the ingredient is found by id, the new name is
normalized, and the update is rejected when a different ingredient already
has that normalized name. -/
def update_ingredient (env : NormEnv) (st : DBState) (ingredient_id : Nat)
    (new_name : String) : Except String DBState :=
  match st.ingredients.find? (fun p => p.1 == ingredient_id) with
  | none => .error "Ingredient not found"
  | some _ =>
    match st.ingredients.find? (fun p =>
        p.2 == (normalize_name env new_name true).1 && p.1 != ingredient_id) with
    | some existing =>
      .error ("Ingredient " ++ new_name ++ " already exists (as " ++
        existing.2 ++ ")")
    | none =>
      .ok { st with ingredients :=
        st.ingredients.map (fun p =>
          if p.1 = ingredient_id then (p.1, (normalize_name env new_name true).1)
          else p) }

/-- The rapidfuzz `process.extract(query, choices, scorer, limit)` contract
over an `(id, name)` choice dictionary: every choice is scored, the results
are sorted by score descending, and the best `limit` are returned as
`(name, score, id)` triples. -/
def extract (scorer : String → String → ℚ) (query : String)
    (choices : List (Nat × String)) (limit : Nat) : List (String × ℚ × Nat) :=
  (sortByDesc (fun r => r.2.1)
    (choices.map (fun p => (p.2, scorer query p.2, p.1)))).take limit

/-- The shared result loop of `find_similar_ingredients` and
`find_similar_recipes`: walk the extracted matches in order, keep those with
score at least `min_score`, and re-fetch each row by id, pairing it with its
score. -/
def simFilter (scorer : String → String → ℚ) (rows : List (Nat × String))
    (q : String) (min_score : ℚ) : List ((Nat × String) × ℚ) :=
  (extract scorer q rows 5).filterMap
    (fun r =>
      if min_score ≤ r.2.1 then
        (rows.find? (fun p => p.1 == r.2.2)).map (fun ing => (ing, r.2.1))
      else none)

/-- `find_similar_ingredients` from `scripts/db_operations.py`: lowercase the
query, extract the 5 best matches over all ingredient names, keep those with
score at least `min_score`, and re-fetch each ingredient row by id. -/
def find_similar_ingredients (scorer : String → String → ℚ)
    (ingredients : List (Nat × String)) (name : String) (min_score : ℚ) :
    List ((Nat × String) × ℚ) :=
  if ingredients = [] then []
  else simFilter scorer ingredients (pyLower name) min_score

/-- `find_similar_recipes` from `scripts/db_operations.py`: identical to
`find_similar_ingredients` over recipe rows, except that the query is not
lowercased. -/
def find_similar_recipes (scorer : String → String → ℚ)
    (recipes : List (Nat × String)) (name : String) (min_score : ℚ) :
    List ((Nat × String) × ℚ) :=
  if recipes = [] then []
  else simFilter scorer recipes name min_score

/-- Keep the first occurrence of every string, dropping later duplicates. -/
def dedupFirst : List String → List String
  | [] => []
  | x :: xs => x :: (dedupFirst xs).filter (fun y => y ≠ x)

/-- An ingredient row of the catalog snapshot: a canonical name and an
optional ingredient-type name. -/
structure CatIngredient where
  name : String
  typeName : Option String
deriving DecidableEq

/-- A recipe row of the catalog snapshot: an id and the names of its
ingredients. -/
structure CatRecipe where
  rid : Nat
  ingredientNames : List String
deriving DecidableEq

/-- The catalog snapshot consumed by the exact ingredient-set matcher. -/
structure Catalog where
  ingredients : List CatIngredient
  recipes : List CatRecipe

/-- The normalized, deduplicated term list of a comma-delimited query: split
on commas, lowercase and trim each term, drop empties, keep the first
occurrence of each distinct term. -/
def normTermsOf (query : String) : List String :=
  dedupFirst (((splitCommaCore query.toList).map
    (fun l => pyStrip (pyLower ⟨l⟩))).filter (fun t => t ≠ ""))

/-- Resolution of one search term against the catalog: an exact ingredient
name resolves to itself (exact-ingredient match wins by construction order);
otherwise an ingredient-type name resolves to the names of all ingredients of
that type; otherwise the term is unresolved. -/
def resolveTerm (cat : Catalog) (t : String) : Option (List String) :=
  if cat.ingredients.any (fun i => i.name == t) then some [t]
  else if cat.ingredients.any (fun i => i.typeName == some t) then
    some ((cat.ingredients.filter (fun i => i.typeName == some t)).map
      CatIngredient.name)
  else none

/-- Whether a recipe satisfies a term: the term's resolved name-set has a
non-empty intersection with the recipe's own ingredient names. -/
def termSat (cat : Catalog) (t : String) (r : CatRecipe) : Bool :=
  ((resolveTerm cat t).getD []).any (fun n => r.ingredientNames.contains n)

/-- The number of distinct requested terms satisfied by a recipe. -/
def satCount (cat : Catalog) (terms : List String) (r : CatRecipe) : Nat :=
  (terms.filter (fun t => termSat cat t r)).length

/-- Modelled from the spec: `search_recipes_by_ingredients_exact` is imported
from `db_operations` by `cli.py` (`cmd_search`, `cmd_recipe_cook`) but its
definition is not among the provided sources; this definition follows the
specification of the Exact Ingredient-Set Matcher.  The query is split on
commas with each term trimmed and lowercased; no terms yields an empty
result; a term matching neither an exact ingredient name nor an
ingredient-type name is a validation error carrying every unresolved term;
otherwise each recipe is scored by the number of distinct terms it satisfies,
recipes below `min_matches` are dropped, and the rest are sorted by count
descending, stable in catalog order. -/
def search_recipes_by_ingredients_exact (cat : Catalog) (query : String)
    (min_matches : Nat) : Except (List String) (List (Nat × Nat)) :=
  if normTermsOf query = [] then .ok []
  else if (normTermsOf query).filter (fun t => (resolveTerm cat t).isNone) ≠ [] then
    .error ((normTermsOf query).filter (fun t => (resolveTerm cat t).isNone))
  else
    .ok (sortByDesc Prod.snd
      ((cat.recipes.map (fun r => (r.rid, satCount cat (normTermsOf query) r))).filter
        (fun p => min_matches ≤ p.2)))

/-- A canonical token: a nonempty word with no whitespace and no uppercase
characters, the shape of every word produced by lowering, stripping and
splitting a name. -/
def CanonTok (w : String) : Prop :=
  w ≠ "" ∧ ∀ c ∈ w.toList, ¬c.isWhitespace = true ∧ c.toLower = c

instance decCanonTok (w : String) : Decidable (CanonTok w) :=
  inferInstanceAs (Decidable
    (w ≠ "" ∧ ∀ c ∈ w.toList, ¬c.isWhitespace = true ∧ c.toLower = c))

/-- Contracts on the external normalization collaborators under which the
pipeline is idempotent, each the documented behavior of the real library:
pyspellchecker suggestions are dictionary words and dictionary entries are
lowercase single tokens; a spaCy lemma is the word itself or a dictionary
word and lemmatization is a projection (a lemma is its own lemma); inflect
`singular_noun` produces dictionary singulars, and singular forms are fixed
points of both singularizers. -/
structure EnvOK (env : NormEnv) : Prop where
  dict_canon : ∀ w ∈ env.dict, CanonTok w
  cands_dict : ∀ w c, c ∈ env.candidates w → c ∈ env.dict
  lemma_dict : ∀ w l, env.spacyLemma w = some l → l = w ∨ l ∈ env.dict
  lemma_fix : ∀ w l, env.spacyLemma w = some l →
    ∀ l2, env.spacyLemma l = some l2 → l2 = l
  inflect_dict : ∀ w s, env.inflectSingular w = some s → s ∈ env.dict
  inflect_fix : ∀ w s, env.inflectSingular w = some s →
    env.inflectSingular s = none
  lemma_inflect : ∀ w l, env.spacyLemma w = some l → l ≠ w →
    env.inflectSingular l = none
  inflect_lemma : ∀ w s, env.inflectSingular w = some s →
    ∀ l2, env.spacyLemma s = some l2 → l2 = s

/-- The degraded environment: no dictionary, no suggestions, no lemmatizer,
and an inflect engine that recognizes nothing — the configuration where every
optional dependency is absent. -/
def envPass : NormEnv :=
  ⟨[], fun _ => [], fuzzSim, 70, fun _ => none, fun _ => none⟩

/-- A small concrete environment for exercising idempotence: a two-word
dictionary, no spell suggestions, no lemmatizer, and an inflect engine that
singularizes only "tomatoes". -/
def envIdem : NormEnv :=
  ⟨["tomato", "red"], fun _ => [], fuzzSim, 70, fun _ => none,
    fun w => if w = "tomatoes" then some "tomato" else none⟩

/-- An environment whose dictionary suggests "abd" for the unknown word
"abc": `fuzz.ratio("abc", "abd") = 200/3 < 70` but the non-possessive bonus
lifts the compared score to `200/3 + 5 ≥ 70`. -/
def envBonus : NormEnv :=
  ⟨["abd"], fun w => if w = "abc" then ["abd"] else [], fuzzSim, 70,
    fun _ => none, fun _ => none⟩

/-- An environment whose dictionary contains the words of both
"tomato paste" and "tomato pasta", with no suggestions or singularizers, so
both names normalize to themselves. -/
def envDup : NormEnv :=
  ⟨["tomato", "paste", "pasta"], fun _ => [], fuzzSim, 70, fun _ => none,
    fun _ => none⟩

/-- A catalog state holding the single ingredient "tomato paste". -/
def stDup : DBState := ⟨[(1, "tomato paste")], ["vegetable"], 2⟩

/-- An environment whose inflect engine singularizes "vegetables" to
"vegetable", as the real inflect library does. -/
def envVeg : NormEnv :=
  ⟨["vegetable"], fun _ => [], fuzzSim, 70, fun _ => none,
    fun w => if w = "vegetables" then some "vegetable" else none⟩

/-- A catalog state holding the single ingredient "tomato". -/
def stUniq : DBState := ⟨[(1, "tomato")], [], 2⟩

/-- The specification's worked catalog: recipe 1 (tomato, basil) and
recipe 2 (tomato, onion), with typed ingredients. -/
def catW : Catalog :=
  ⟨[⟨"tomato", some "vegetable"⟩, ⟨"basil", some "herb"⟩,
      ⟨"onion", some "vegetable"⟩],
    [⟨1, ["tomato", "basil"]⟩, ⟨2, ["tomato", "onion"]⟩]⟩

/-- A constant stand-in for the external weighted-ratio scorer, with every
score inside [0, 100]. -/
def constScorer : String → String → ℚ := fun _ _ => 70

section CharLemmas

theorem char_eq_iff_toNat (d e : Char) : d = e ↔ d.toNat = e.toNat := by
  constructor
  · intro h; rw [h]
  · intro h; exact Char.eq_of_val_eq (UInt32.ext h)

theorem toNat_ofNat_valid (n : Nat) (h : n.isValidChar) :
    (Char.ofNat n).toNat = n := by
  simp only [Char.ofNat, dif_pos h]
  rcases h with h | ⟨h1, h2⟩ <;>
  · simp [Char.ofNatAux, Char.toNat, UInt32.toNat, UInt32.ofNat',
      BitVec.toNat_ofNatLt]

theorem toLower_idem (c : Char) : c.toLower.toLower = c.toLower := by
  simp only [Char.toLower]
  by_cases h : c.toNat ≥ 65 ∧ c.toNat ≤ 90
  · rw [if_pos h]
    have hv : Nat.isValidChar (c.toNat + 32) := Or.inl (by omega)
    rw [if_neg]
    rw [toNat_ofNat_valid _ hv]
    omega
  · rw [if_neg h, if_neg h]

theorem ws_iff_toNat (d : Char) :
    d.isWhitespace = true ↔
      (d.toNat = 32 ∨ d.toNat = 9 ∨ d.toNat = 13 ∨ d.toNat = 10) := by
  simp only [Char.isWhitespace, Bool.or_eq_true, decide_eq_true_eq]
  rw [char_eq_iff_toNat d ' ', char_eq_iff_toNat d '\t', char_eq_iff_toNat d '\x0d',
    char_eq_iff_toNat d '\n']
  show (((d.toNat = 32 ∨ d.toNat = 9) ∨ d.toNat = 13) ∨ d.toNat = 10) ↔ _
  tauto

theorem toLower_ws (c : Char) : c.toLower.isWhitespace = c.isWhitespace := by
  simp only [Char.toLower]
  by_cases h : c.toNat ≥ 65 ∧ c.toNat ≤ 90
  · rw [if_pos h]
    have h1 : (Char.ofNat (c.toNat + 32)).toNat = c.toNat + 32 :=
      toNat_ofNat_valid _ (Or.inl (by omega))
    have h2 := ws_iff_toNat (Char.ofNat (c.toNat + 32))
    have h3 := ws_iff_toNat c
    rw [h1] at h2
    cases hb : (Char.ofNat (c.toNat + 32)).isWhitespace
    · cases hb2 : c.isWhitespace
      · rfl
      · exact absurd (h3.mp hb2) (by omega)
    · exact absurd (h2.mp hb) (by omega)
  · rw [if_neg h]

end CharLemmas

section SplitLemmas

theorem splitWs_cons_ws (c : Char) (cs : List Char)
    (hc : c.isWhitespace = true) :
    splitWsCore (c :: cs) = splitWsCore cs := by
  cases cs with
  | nil => simp [splitWsCore, hc]
  | cons d cs2 => simp [splitWsCore, hc]

theorem splitWs_ne_nil (d : Char) (cs : List Char)
    (hd : ¬d.isWhitespace = true) : splitWsCore (d :: cs) ≠ [] := by
  cases cs with
  | nil => simp [splitWsCore, hd]
  | cons e cs2 =>
    simp only [splitWsCore, if_neg hd]
    split
    · simp
    · split <;> simp

theorem splitWs_tokens (l : List Char) :
    ∀ t ∈ splitWsCore l, t ≠ [] ∧ ∀ c ∈ t, ¬c.isWhitespace = true ∧ c ∈ l := by
  induction l using splitWsCore.induct with
  | case1 => simp [splitWsCore]
  | case2 c hc => simp [splitWsCore, hc]
  | case3 c hc =>
    simp only [splitWsCore, if_neg hc, List.mem_singleton]
    rintro t rfl
    exact ⟨by simp, by simpa using hc⟩
  | case4 c d cs hc ih =>
    rw [splitWs_cons_ws c _ hc]
    intro t ht
    rcases ih t ht with ⟨h1, h2⟩
    exact ⟨h1, fun ch hch =>
      ⟨(h2 ch hch).1, List.mem_cons_of_mem _ (h2 ch hch).2⟩⟩
  | case5 c d cs hc hd ih =>
    simp only [splitWsCore, if_neg hc, if_pos hd, List.mem_cons]
    rintro t (rfl | ht)
    · exact ⟨by simp, by simpa using hc⟩
    · rcases ih t ht with ⟨h1, h2⟩
      exact ⟨h1, fun ch hch =>
        ⟨(h2 ch hch).1, Or.inr (List.mem_cons.mp (h2 ch hch).2)⟩⟩
  | case6 c d cs hc hd heq ih =>
    exact absurd heq (splitWs_ne_nil d cs hd)
  | case7 c d cs hc hd t ts heq ih =>
    simp only [splitWsCore, if_neg hc, if_neg hd, heq, List.mem_cons]
    rintro u (rfl | hu)
    · rcases ih (t) (by rw [heq]; exact List.mem_cons_self _ _) with ⟨h1, h2⟩
      refine ⟨by simp, ?_⟩
      intro ch hch
      rcases List.mem_cons.mp hch with rfl | hch
      · exact ⟨by simpa using hc, by simp⟩
      · exact ⟨(h2 ch hch).1, Or.inr (List.mem_cons.mp (h2 ch hch).2)⟩
    · rcases ih u (by rw [heq]; exact List.mem_cons_of_mem _ hu) with ⟨h1, h2⟩
      exact ⟨h1, fun ch hch =>
        ⟨(h2 ch hch).1, Or.inr (List.mem_cons.mp (h2 ch hch).2)⟩⟩

theorem splitWs_all_ws (l : List Char) (h : ∀ c ∈ l, c.isWhitespace = true) :
    splitWsCore l = [] := by
  induction l with
  | nil => rfl
  | cons c cs ih =>
    rw [splitWs_cons_ws c cs (h c (List.mem_cons_self _ _))]
    exact ih (fun d hd => h d (List.mem_cons_of_mem _ hd))

theorem splitWs_dropWhile (l : List Char) :
    splitWsCore (l.dropWhile Char.isWhitespace) = splitWsCore l := by
  induction l with
  | nil => rfl
  | cons c cs ih =>
    by_cases hc : c.isWhitespace = true
    · rw [List.dropWhile_cons_of_pos hc, ih, splitWs_cons_ws c cs hc]
    · rw [List.dropWhile_cons_of_neg (by simpa using hc)]

theorem takeWhile_append_all {p : Char → Bool} (l1 l2 : List Char)
    (h : ∀ c ∈ l1, p c = true) :
    (l1 ++ l2).takeWhile p = l1 ++ l2.takeWhile p := by
  induction l1 with
  | nil => simp
  | cons c cs ih =>
    rw [List.cons_append, List.takeWhile_cons_of_pos (h c (List.mem_cons_self _ _)),
      ih (fun d hd => h d (List.mem_cons_of_mem _ hd)), List.cons_append]

theorem dropWhile_append_all {p : Char → Bool} (l1 l2 : List Char)
    (h : ∀ c ∈ l1, p c = true) :
    (l1 ++ l2).dropWhile p = l2.dropWhile p := by
  induction l1 with
  | nil => simp
  | cons c cs ih =>
    rw [List.cons_append, List.dropWhile_cons_of_pos (h c (List.mem_cons_self _ _)),
      ih (fun d hd => h d (List.mem_cons_of_mem _ hd))]

theorem splitWs_append_ws (l w : List Char)
    (hw : ∀ c ∈ w, c.isWhitespace = true) :
    splitWsCore (l ++ w) = splitWsCore l := by
  induction l using splitWsCore.induct with
  | case1 => simpa using splitWs_all_ws w hw
  | case2 c hc =>
    have h1 : splitWsCore [c] = [] := by simp [splitWsCore, hc]
    rw [List.singleton_append, splitWs_cons_ws c w hc, h1]
    exact splitWs_all_ws w hw
  | case3 c hc =>
    rw [List.singleton_append]
    cases w with
    | nil => rfl
    | cons e w2 =>
      have he := hw e (List.mem_cons_self _ _)
      simp only [splitWsCore, if_neg hc, if_pos he]
      rw [show splitWsCore (e :: w2) = [] from
        splitWs_all_ws _ (fun d hd => hw d hd)]
  | case4 c d cs hc ih =>
    rw [List.cons_append, splitWs_cons_ws c _ hc, splitWs_cons_ws c _ hc]
    exact ih
  | case5 c d cs hc hd ih =>
    rw [List.cons_append, List.cons_append]
    simp only [splitWsCore, if_neg hc, if_pos hd]
    rw [show d :: (cs ++ w) = (d :: cs) ++ w from rfl, ih]
  | case6 c d cs hc hd heq ih =>
    exact absurd heq (splitWs_ne_nil d cs hd)
  | case7 c d cs hc hd t ts heq ih =>
    rw [List.cons_append, List.cons_append]
    simp only [splitWsCore, if_neg hc, if_neg hd]
    rw [show d :: (cs ++ w) = (d :: cs) ++ w from rfl, ih, heq]

theorem splitWs_strip (l : List Char) :
    splitWsCore (stripCore l) = splitWsCore l := by
  unfold stripCore
  set A := l.dropWhile Char.isWhitespace with hA
  have hsplit : A.reverse.takeWhile Char.isWhitespace ++
      A.reverse.dropWhile Char.isWhitespace = A.reverse :=
    List.takeWhile_append_dropWhile _ _
  have hAeq : A = (A.reverse.dropWhile Char.isWhitespace).reverse ++
      (A.reverse.takeWhile Char.isWhitespace).reverse := by
    have := congrArg List.reverse hsplit
    rw [List.reverse_append] at this
    rw [this, List.reverse_reverse]
  calc splitWsCore (A.reverse.dropWhile Char.isWhitespace).reverse
      = splitWsCore ((A.reverse.dropWhile Char.isWhitespace).reverse ++
          (A.reverse.takeWhile Char.isWhitespace).reverse) := by
        rw [splitWs_append_ws]
        intro c hc
        exact List.mem_takeWhile_imp (List.mem_reverse.mp hc)
    _ = splitWsCore A := by rw [← hAeq]
    _ = splitWsCore l := by rw [hA, splitWs_dropWhile]

theorem splitWs_token (t : List Char) (ht : t ≠ [])
    (hc : ∀ c ∈ t, ¬c.isWhitespace = true) : splitWsCore t = [t] := by
  induction t with
  | nil => exact absurd rfl ht
  | cons c cs ih =>
    cases cs with
    | nil => simp [splitWsCore, hc c (List.mem_cons_self _ _)]
    | cons d cs2 =>
      have hd := hc d (List.mem_cons_of_mem _ (List.mem_cons_self _ _))
      simp only [splitWsCore, if_neg (hc c (List.mem_cons_self _ _)), if_neg hd]
      rw [ih (by simp) (fun x hx => hc x (List.mem_cons_of_mem _ hx))]

theorem splitWs_append_token (t r : List Char) (ht : t ≠ [])
    (hc : ∀ c ∈ t, ¬c.isWhitespace = true) :
    splitWsCore (t ++ ' ' :: r) = t :: splitWsCore r := by
  induction t with
  | nil => exact absurd rfl ht
  | cons c cs ih =>
    cases cs with
    | nil =>
      rw [List.singleton_append]
      simp only [splitWsCore, if_neg (hc c (List.mem_cons_self _ _))]
      rw [if_pos (by decide : (' ' : Char).isWhitespace = true),
        splitWs_cons_ws ' ' r (by decide)]
    | cons d cs2 =>
      have hd := hc d (List.mem_cons_of_mem _ (List.mem_cons_self _ _))
      have hih : splitWsCore (d :: (cs2 ++ ' ' :: r)) = (d :: cs2) :: splitWsCore r :=
        ih (by simp) (fun x hx => hc x (List.mem_cons_of_mem _ hx))
      rw [List.cons_append]
      simp only [splitWsCore, if_neg (hc c (List.mem_cons_self _ _)), if_neg hd,
        List.append_eq, hih]

theorem splitWs_joinChars (toks : List (List Char)) (hne : toks ≠ [])
    (h : ∀ t ∈ toks, t ≠ [] ∧ ∀ c ∈ t, ¬c.isWhitespace = true) :
    splitWsCore (joinChars toks) = toks := by
  induction toks with
  | nil => exact absurd rfl hne
  | cons t ts ih =>
    cases ts with
    | nil =>
      show splitWsCore (joinChars [t]) = [t]
      rcases h t (List.mem_cons_self _ _) with ⟨h1, h2⟩
      exact splitWs_token t h1 h2
    | cons t2 ts2 =>
      show splitWsCore (t ++ ' ' :: joinChars (t2 :: ts2)) = t :: t2 :: ts2
      rcases h t (List.mem_cons_self _ _) with ⟨h1, h2⟩
      rw [splitWs_append_token t _ h1 h2,
        ih (by simp) (fun u hu => h u (List.mem_cons_of_mem _ hu))]

theorem mem_joinChars (toks : List (List Char)) (c : Char)
    (hc : c ∈ joinChars toks) : c = ' ' ∨ ∃ t ∈ toks, c ∈ t := by
  induction toks with
  | nil => cases hc
  | cons t ts ih =>
    cases ts with
    | nil =>
      exact Or.inr ⟨t, List.mem_cons_self _ _, hc⟩
    | cons t2 ts2 =>
      rcases List.mem_append.mp hc with h | h
      · exact Or.inr ⟨t, List.mem_cons_self _ _, h⟩
      · rcases List.mem_cons.mp h with rfl | h
        · exact Or.inl rfl
        · rcases ih h with h | ⟨u, hu, hcu⟩
          · exact Or.inl h
          · exact Or.inr ⟨u, List.mem_cons_of_mem _ hu, hcu⟩

end SplitLemmas

section SortLemmas

variable {α β : Type} [LinearOrder β] (key : α → β)

theorem insertByDesc_perm (x : α) (l : List α) :
    (insertByDesc key x l).Perm (x :: l) := by
  induction l with
  | nil => rfl
  | cons y ys ih =>
    simp only [insertByDesc]
    split
    · exact List.Perm.refl _
    · exact ((ih).cons y).trans (List.Perm.swap x y ys)

theorem sortByDesc_go_perm (l acc : List α) :
    (l.foldl (fun acc x => insertByDesc key x acc) acc).Perm (acc ++ l) := by
  induction l generalizing acc with
  | nil => simp
  | cons x xs ih =>
    simp only [List.foldl_cons]
    exact ((ih _).trans
      (((insertByDesc_perm key x acc).append_right xs).trans
        (by simpa using (@List.perm_middle _ x acc xs).symm)))

theorem sortByDesc_perm (l : List α) : (sortByDesc key l).Perm l := by
  simpa using sortByDesc_go_perm key l []

theorem pairwise_insertByDesc (x : α) (l : List α)
    (h : l.Pairwise (fun a b => key b ≤ key a)) :
    (insertByDesc key x l).Pairwise (fun a b => key b ≤ key a) := by
  induction l with
  | nil => simp [insertByDesc]
  | cons y ys ih =>
    rcases List.pairwise_cons.mp h with ⟨hy, hys⟩
    simp only [insertByDesc]
    split
    · refine List.pairwise_cons.mpr ⟨?_, h⟩
      intro z hz
      rcases List.mem_cons.mp hz with rfl | hz
      · exact le_of_lt (by assumption)
      · exact le_trans (hy z hz) (le_of_lt (by assumption))
    · refine List.pairwise_cons.mpr ⟨?_, ih hys⟩
      intro z hz
      rcases List.mem_cons.mp ((insertByDesc_perm key x ys).mem_iff.mp hz) with
        rfl | hz
      · exact le_of_not_lt (by assumption)
      · exact hy z hz

theorem sortByDesc_pairwise (l : List α) :
    (sortByDesc key l).Pairwise (fun a b => key b ≤ key a) := by
  suffices h : ∀ (l acc : List α), acc.Pairwise (fun a b => key b ≤ key a) →
      (l.foldl (fun acc x => insertByDesc key x acc) acc).Pairwise
        (fun a b => key b ≤ key a) by
    exact h l [] (by simp)
  intro l
  induction l with
  | nil => intro acc h; simpa using h
  | cons x xs ih =>
    intro acc h
    exact ih _ (pairwise_insertByDesc key x acc h)

theorem filter_insertByDesc (x : α) (l : List α) (k : β)
    (h : l.Pairwise (fun a b => key b ≤ key a)) :
    (insertByDesc key x l).filter (fun a => decide (key a = k)) =
      if key x = k then l.filter (fun a => decide (key a = k)) ++ [x]
      else l.filter (fun a => decide (key a = k)) := by
  induction l with
  | nil => simp only [insertByDesc, List.filter]; split <;> simp_all
  | cons y ys ih =>
    rcases List.pairwise_cons.mp h with ⟨hy, hys⟩
    simp only [insertByDesc]
    split
    · rename_i hlt
      by_cases hxk : key x = k
      · have hnil : (y :: ys).filter (fun a => decide (key a = k)) = [] := by
          rw [List.filter_eq_nil_iff]
          intro z hz
          have hzle : key z ≤ key y := by
            rcases List.mem_cons.mp hz with rfl | hz
            · exact le_refl _
            · exact hy z hz
          simp only [decide_eq_true_eq]
          intro hzk
          rw [hzk] at hzle
          rw [← hxk] at hzle
          exact absurd (lt_of_lt_of_le hlt hzle) (lt_irrefl _)
        rw [if_pos hxk, hnil, List.filter_cons_of_pos (by simpa using hxk), hnil]
        rfl
      · rw [if_neg hxk]
        simp only [List.filter]
        rw [show (decide (key x = k)) = false by simpa using hxk]
    · by_cases hyk : key y = k
      · simp only [List.filter, show (decide (key y = k)) = true by simpa using hyk,
          ih hys]
        split <;> simp
      · simp only [List.filter, show (decide (key y = k)) = false by simpa using hyk,
          ih hys]

theorem sortByDesc_filter_key (l : List α) (k : β) :
    (sortByDesc key l).filter (fun a => decide (key a = k)) =
      l.filter (fun a => decide (key a = k)) := by
  suffices h : ∀ (l acc : List α), acc.Pairwise (fun a b => key b ≤ key a) →
      (l.foldl (fun acc x => insertByDesc key x acc) acc).filter
          (fun a => decide (key a = k)) =
        acc.filter (fun a => decide (key a = k)) ++
          l.filter (fun a => decide (key a = k)) by
    simpa using h l [] (by simp)
  intro l
  induction l with
  | nil => intro acc h; simp
  | cons x xs ih =>
    intro acc h
    simp only [List.foldl_cons]
    rw [ih _ (pairwise_insertByDesc key x acc h), filter_insertByDesc key x acc k h]
    by_cases hxk : key x = k
    · simp [hxk, List.filter_cons]
    · simp [List.filter_cons, hxk]

end SortLemmas

section SimilarLemmas

theorem extract_pairwise (scorer : String → String → ℚ) (q : String)
    (choices : List (Nat × String)) (limit : Nat) :
    (extract scorer q choices limit).Pairwise (fun a b => b.2.1 ≤ a.2.1) :=
  (sortByDesc_pairwise (fun r : String × ℚ × Nat => r.2.1) _).sublist
    (List.take_sublist _ _)

theorem extract_mem (scorer : String → String → ℚ) (q : String)
    (choices : List (Nat × String)) (limit : Nat)
    {r : String × ℚ × Nat} (hr : r ∈ extract scorer q choices limit) :
    ∃ p ∈ choices, r = (p.2, scorer q p.2, p.1) := by
  have h1 : r ∈ sortByDesc (fun r : String × ℚ × Nat => r.2.1)
      (choices.map (fun p => (p.2, scorer q p.2, p.1))) :=
    (List.take_sublist _ _).mem hr
  have h2 := (sortByDesc_perm _ _).mem_iff.mp h1
  rcases List.mem_map.mp h2 with ⟨p, hp, hpr⟩
  exact ⟨p, hp, hpr.symm⟩

theorem extract_length (scorer : String → String → ℚ) (q : String)
    (choices : List (Nat × String)) (limit : Nat) :
    (extract scorer q choices limit).length ≤ limit := by
  unfold extract
  rw [List.length_take]
  exact min_le_left _ _

theorem simFilter_mem (scorer : String → String → ℚ)
    (rows : List (Nat × String)) (q : String) (t : ℚ)
    {pr : (Nat × String) × ℚ} (h : pr ∈ simFilter scorer rows q t) :
    t ≤ pr.2 ∧ ∃ nm, pr.2 = scorer q nm := by
  rcases List.mem_filterMap.mp h with ⟨r, hr, hgr⟩
  by_cases ht : t ≤ r.2.1
  · rw [if_pos ht] at hgr
    rcases Option.map_eq_some'.mp hgr with ⟨ing, _, hing⟩
    rcases extract_mem scorer q rows 5 hr with ⟨p, _, rfl⟩
    exact ⟨by simpa [← hing] using ht, p.2, by simp [← hing]⟩
  · rw [if_neg ht] at hgr
    exact absurd hgr (by simp)

theorem simFilter_pairwise (scorer : String → String → ℚ)
    (rows : List (Nat × String)) (q : String) (t : ℚ) :
    (simFilter scorer rows q t).Pairwise (fun a b => b.2 ≤ a.2) := by
  unfold simFilter
  have h := extract_pairwise scorer q rows 5
  generalize extract scorer q rows 5 = l at h ⊢
  induction l with
  | nil => simp
  | cons r rs ih =>
    rcases List.pairwise_cons.mp h with ⟨hr, hrs⟩
    simp only [List.filterMap_cons]
    cases hgr : (if t ≤ r.2.1 then
        (rows.find? (fun p => p.1 == r.2.2)).map (fun ing => (ing, r.2.1))
      else none) with
    | none => exact ih hrs
    | some x =>
      refine List.pairwise_cons.mpr ⟨?_, ih hrs⟩
      intro y hy
      rcases List.mem_filterMap.mp hy with ⟨a, ha, hga⟩
      have hx2 : x.2 = r.2.1 := by
        by_cases ht : t ≤ r.2.1
        · rw [if_pos ht] at hgr
          rcases Option.map_eq_some'.mp hgr with ⟨ing, _, hing⟩
          simp [← hing]
        · rw [if_neg ht] at hgr; cases hgr
      have hy2 : y.2 = a.2.1 := by
        by_cases ht : t ≤ a.2.1
        · rw [if_pos ht] at hga
          rcases Option.map_eq_some'.mp hga with ⟨ing, _, hing⟩
          simp [← hing]
        · rw [if_neg ht] at hga; cases hga
      rw [hx2, hy2]
      exact hr a ha

theorem simFilter_length (scorer : String → String → ℚ)
    (rows : List (Nat × String)) (q : String) (t : ℚ) :
    (simFilter scorer rows q t).length ≤ 5 :=
  le_trans (List.length_filterMap_le _ _) (extract_length scorer q rows 5)

end SimilarLemmas

section NormLemmas

theorem dropWhile_eq_self_of {p : Char → Bool} (l : List Char)
    (h : ∀ c ∈ l, ¬p c = true) : l.dropWhile p = l := by
  cases l with
  | nil => rfl
  | cons c cs => exact List.dropWhile_cons_of_neg (h c (List.mem_cons_self _ _))

theorem mem_stripCore (l : List Char) (c : Char) (h : c ∈ stripCore l) :
    c ∈ l := by
  unfold stripCore at h
  have h1 := List.mem_reverse.mp h
  have h2 := (List.dropWhile_sublist _).mem h1
  exact (List.dropWhile_sublist _).mem (List.mem_reverse.mp h2)

theorem map_toLower_canon (l : List Char) (h : ∀ c ∈ l, c.toLower = c) :
    l.map Char.toLower = l := by
  induction l with
  | nil => rfl
  | cons c cs ih =>
    rw [List.map_cons, h c (List.mem_cons_self _ _),
      ih (fun d hd => h d (List.mem_cons_of_mem _ hd))]

theorem mk_toList (s : String) : (⟨s.toList⟩ : String) = s := rfl

theorem canonTok_pyLower (w : String) (hw : CanonTok w) : pyLower w = w := by
  unfold pyLower
  rw [map_toLower_canon w.toList (fun c hc => (hw.2 c hc).2), mk_toList]

theorem canonTok_pyStrip (w : String) (hw : CanonTok w) : pyStrip w = w := by
  unfold pyStrip stripCore
  rw [dropWhile_eq_self_of w.toList (fun c hc => (hw.2 c hc).1),
    dropWhile_eq_self_of w.toList.reverse
      (fun c hc => (hw.2 c (List.mem_reverse.mp hc)).1),
    List.reverse_reverse, mk_toList]

theorem singularize_red (env : NormEnv) (w : String) (hw : CanonTok w) :
    singularize_word env w true =
      (postCorr env (corrStep env w).1, (corrStep env w).2) := by
  unfold singularize_word
  rw [if_neg hw.1, canonTok_pyStrip w hw, canonTok_pyLower w hw]
  rfl

theorem corrStep_mem_dict (env : NormEnv) (w : String) (hw : w ∈ env.dict) :
    corrStep env w = (w, []) := by
  unfold corrStep
  rw [if_pos hw]

theorem corrStep_top_eq (env : NormEnv) (w c : String) (s : ℚ)
    (rest : List (String × ℚ)) (h1 : w ∉ env.dict)
    (h2 : ¬env.candidates w = [])
    (hsc : scoreCands env w (env.candidates w) = (c, s) :: rest) :
    corrStep env w =
      if env.threshold ≤ s then
        if endsAposS c = true ∧ dropLast2 c ∈ env.dict then
          (dropLast2 c, [(w, dropLast2 c)])
        else (c, [(w, c)])
      else (w, []) := by
  unfold corrStep
  rw [if_neg h1, if_neg h2, hsc]

theorem corrStep_cases (env : NormEnv) (hok : EnvOK env) (w : String) :
    corrStep env w = (w, []) ∨ (corrStep env w).1 ∈ env.dict := by
  by_cases h1 : w ∈ env.dict
  · left; exact corrStep_mem_dict env w h1
  · by_cases h2 : env.candidates w = []
    · left; unfold corrStep; rw [if_neg h1, if_pos h2]
    · cases hsc : scoreCands env w (env.candidates w) with
      | nil =>
        left
        unfold corrStep
        rw [if_neg h1, if_neg h2, hsc]
      | cons p rest =>
        obtain ⟨c, s⟩ := p
        rw [corrStep_top_eq env w c s rest h1 h2 hsc]
        by_cases h3 : env.threshold ≤ s
        · right
          have hcmem : c ∈ env.candidates w := by
            have hmem : (c, s) ∈ scoreCands env w (env.candidates w) := by
              rw [hsc]; exact List.mem_cons_self _ _
            unfold scoreCands at hmem
            have hmem2 := (sortByDesc_perm _ _).mem_iff.mp hmem
            rcases List.mem_map.mp hmem2 with ⟨c0, hc0, heq⟩
            cases heq
            exact hc0
          have hcdict := hok.cands_dict w c hcmem
          rw [if_pos h3]
          by_cases h4 : endsAposS c = true ∧ dropLast2 c ∈ env.dict
          · rw [if_pos h4]; exact h4.2
          · rw [if_neg h4]; exact hcdict
        · left; rw [if_neg h3]

theorem lemmaStage_some_eq (env : NormEnv) (w l0 : String)
    (hsl : env.spacyLemma w = some l0) :
    lemmaStage env w =
      if l0 ≠ "" ∧ l0 ≠ w ∧ l0.length ≤ w.length + 2 then
        if w ∈ env.dict then (if l0 ∈ env.dict then some l0 else none)
        else some l0
      else none := by
  unfold lemmaStage
  rw [hsl]

theorem lemmaStage_none_eq (env : NormEnv) (w : String)
    (hsl : env.spacyLemma w = none) : lemmaStage env w = none := by
  unfold lemmaStage
  rw [hsl]

theorem lemmaStage_out (env : NormEnv) (w l : String)
    (h : lemmaStage env w = some l) :
    env.spacyLemma w = some l ∧ l ≠ w ∧ (w ∈ env.dict → l ∈ env.dict) := by
  cases hsl : env.spacyLemma w with
  | none => rw [lemmaStage_none_eq env w hsl] at h; cases h
  | some l0 =>
    rw [lemmaStage_some_eq env w l0 hsl] at h
    by_cases h1 : l0 ≠ "" ∧ l0 ≠ w ∧ l0.length ≤ w.length + 2
    · rw [if_pos h1] at h
      by_cases h2 : w ∈ env.dict
      · rw [if_pos h2] at h
        by_cases h3 : l0 ∈ env.dict
        · rw [if_pos h3] at h
          injection h with h4
          subst h4
          exact ⟨rfl, h1.2.1, fun _ => h3⟩
        · rw [if_neg h3] at h; cases h
      · rw [if_neg h2] at h
        injection h with h4
        subst h4
        exact ⟨rfl, h1.2.1, fun hw => absurd hw h2⟩
    · rw [if_neg h1] at h; cases h

theorem postCorr_whitelist (env : NormEnv) (w : String)
    (hwl : w ∈ NO_LEMMATIZE_WHITELIST) : postCorr env w = w := by
  unfold postCorr
  rw [if_pos hwl]

theorem postCorr_lemma_eq (env : NormEnv) (w l : String)
    (hwl : w ∉ NO_LEMMATIZE_WHITELIST) (hls : lemmaStage env w = some l) :
    postCorr env w = l := by
  unfold postCorr
  rw [if_neg hwl, hls]

theorem postCorr_inflect_eq (env : NormEnv) (w sg : String)
    (hwl : w ∉ NO_LEMMATIZE_WHITELIST) (hls : lemmaStage env w = none)
    (hin : env.inflectSingular w = some sg) :
    postCorr env w = if w ∈ env.dict ∧ sg ∉ env.dict then w else sg := by
  unfold postCorr
  rw [if_neg hwl, hls, hin]

theorem postCorr_id_eq (env : NormEnv) (w : String)
    (hwl : w ∉ NO_LEMMATIZE_WHITELIST) (hls : lemmaStage env w = none)
    (hin : env.inflectSingular w = none) : postCorr env w = w := by
  unfold postCorr
  rw [if_neg hwl, hls, hin]

theorem postCorr_cases (env : NormEnv) (w : String) :
    postCorr env w = w
    ∨ (∃ l, lemmaStage env w = some l ∧ postCorr env w = l)
    ∨ (∃ sg, env.inflectSingular w = some sg ∧ postCorr env w = sg) := by
  by_cases hwl : w ∈ NO_LEMMATIZE_WHITELIST
  · left; exact postCorr_whitelist env w hwl
  · cases h1 : lemmaStage env w with
    | some l =>
      exact Or.inr (Or.inl ⟨l, rfl, postCorr_lemma_eq env w l hwl h1⟩)
    | none =>
      cases h2 : env.inflectSingular w with
      | none => left; exact postCorr_id_eq env w hwl h1 h2
      | some sg =>
        rw [postCorr_inflect_eq env w sg hwl h1 h2]
        by_cases h3 : w ∈ env.dict ∧ sg ∉ env.dict
        · left; rw [if_pos h3]
        · rw [if_neg h3]
          exact Or.inr (Or.inr ⟨sg, rfl, rfl⟩)

theorem lemmaStage_fixpoint_none (env : NormEnv) (u : String)
    (hfix : ∀ l2, env.spacyLemma u = some l2 → l2 = u) :
    lemmaStage env u = none := by
  cases h3 : env.spacyLemma u with
  | none => exact lemmaStage_none_eq env u h3
  | some l2 =>
    have hl2 := hfix l2 h3
    subst hl2
    rw [lemmaStage_some_eq env l2 l2 h3, if_neg (by simp)]

theorem postCorr_fix_of_lemma (env : NormEnv) (hok : EnvOK env) (w l : String)
    (h : lemmaStage env w = some l) : postCorr env l = l := by
  rcases lemmaStage_out env w l h with ⟨hsl, hlw, _⟩
  by_cases hwl : l ∈ NO_LEMMATIZE_WHITELIST
  · exact postCorr_whitelist env l hwl
  · exact postCorr_id_eq env l hwl
      (lemmaStage_fixpoint_none env l (hok.lemma_fix w l hsl))
      (hok.lemma_inflect w l hsl hlw)

theorem postCorr_fix_of_inflect (env : NormEnv) (hok : EnvOK env)
    (w sg : String) (h : env.inflectSingular w = some sg) :
    postCorr env sg = sg := by
  by_cases hwl : sg ∈ NO_LEMMATIZE_WHITELIST
  · exact postCorr_whitelist env sg hwl
  · exact postCorr_id_eq env sg hwl
      (lemmaStage_fixpoint_none env sg (hok.inflect_lemma w sg h))
      (hok.inflect_fix w sg h)

theorem sing_fix (env : NormEnv) (hok : EnvOK env) (w : String)
    (hw : CanonTok w) :
    CanonTok ((singularize_word env w true).1) ∧
      (singularize_word env ((singularize_word env w true).1) true).1 =
        (singularize_word env w true).1 := by
  rw [singularize_red env w hw]
  have hlemma_dict : ∀ u l, u = w ∨ u ∈ env.dict → lemmaStage env u = some l →
      l ∈ env.dict := by
    intro u l hu hls
    rcases lemmaStage_out env u l hls with ⟨hsl, hlu, himp⟩
    by_cases hud : u ∈ env.dict
    · exact himp hud
    · rcases hok.lemma_dict u l hsl with rfl | hmem
      · exact absurd rfl hlu
      · exact hmem
  have main : ∀ u, CanonTok u →
      (u = w ∧ corrStep env w = (w, [])) ∨ u ∈ env.dict →
      CanonTok (postCorr env u) ∧
        (singularize_word env (postCorr env u) true).1 = postCorr env u := by
    intro u hu hcase
    have hu_alt : u = w ∨ u ∈ env.dict := by
      rcases hcase with ⟨h1, _⟩ | h2
      · exact Or.inl h1
      · exact Or.inr h2
    rcases postCorr_cases env u with hpc | ⟨l, hls, hpc⟩ | ⟨sg, hin, hpc⟩
    · rw [hpc]
      refine ⟨hu, ?_⟩
      rw [singularize_red env u hu]
      rcases hcase with ⟨rfl, hcs⟩ | hdict
      · rw [hcs]
        exact hpc
      · rw [corrStep_mem_dict env u hdict]
        exact hpc
    · have hldict : l ∈ env.dict := hlemma_dict u l hu_alt hls
      have hlcanon : CanonTok l := hok.dict_canon l hldict
      rw [hpc]
      refine ⟨hlcanon, ?_⟩
      rw [singularize_red env l hlcanon, corrStep_mem_dict env l hldict]
      exact postCorr_fix_of_lemma env hok u l hls
    · have hsgdict : sg ∈ env.dict := hok.inflect_dict u sg hin
      have hsgcanon : CanonTok sg := hok.dict_canon sg hsgdict
      rw [hpc]
      refine ⟨hsgcanon, ?_⟩
      rw [singularize_red env sg hsgcanon, corrStep_mem_dict env sg hsgdict]
      exact postCorr_fix_of_inflect env hok u sg hin
  rcases corrStep_cases env hok w with hcs | hdict
  · rw [hcs]
    exact main w hw (Or.inl ⟨rfl, hcs⟩)
  · exact main ((corrStep env w).1) (hok.dict_canon _ hdict) (Or.inr hdict)

theorem toList_ne_nil (s : String) (h : s ≠ "") : s.toList ≠ [] := by
  intro hc
  apply h
  rw [← mk_toList s, hc]

theorem normalize_red (env : NormEnv) (name : String) (h0 : name ≠ "") :
    (normalize_name env name true).1 =
      joinWords ((pySplit (pyStrip (pyLower name))).map
        (fun w => (singularize_word env w true).1)) := by
  unfold normalize_name
  rw [if_neg h0]
  show joinWords (((pySplit (pyStrip (pyLower name))).map
      (fun w => singularize_word env w true)).map Prod.fst) = _
  rw [List.map_map]
  rfl

theorem pySplit_canon (s : String) :
    ∀ w ∈ pySplit (pyStrip (pyLower s)), CanonTok w := by
  intro w hw
  unfold pySplit at hw
  rcases List.mem_map.mp hw with ⟨t, ht, rfl⟩
  have htok := splitWs_tokens _ t ht
  refine ⟨?_, ?_⟩
  · intro hcon
    apply htok.1
    have h1 : (⟨t⟩ : String).toList = t := rfl
    rw [hcon] at h1
    exact h1.symm
  · intro c hc
    have hct : c ∈ t := hc
    refine ⟨(htok.2 c hct).1, ?_⟩
    have hcl := mem_stripCore _ c (htok.2 c hct).2
    rcases List.mem_map.mp hcl with ⟨d, _, rfl⟩
    exact toLower_idem d

theorem joinChars_ne_nil (toks : List (List Char)) (hne : toks ≠ [])
    (h : ∀ t ∈ toks, t ≠ []) : joinChars toks ≠ [] := by
  cases toks with
  | nil => exact absurd rfl hne
  | cons t ts =>
    cases ts with
    | nil => exact h t (List.mem_cons_self _ _)
    | cons t2 ts2 =>
      show t ++ ' ' :: joinChars (t2 :: ts2) ≠ []
      cases t with
      | nil => simp
      | cons c cs => simp

theorem pySplit_strip (s : String) : pySplit (pyStrip s) = pySplit s := by
  unfold pySplit pyStrip
  rw [show (⟨stripCore s.toList⟩ : String).toList = stripCore s.toList from rfl,
    splitWs_strip]

theorem map_mk_toList (l : List String) :
    (l.map String.toList).map (fun t => (⟨t⟩ : String)) = l := by
  rw [List.map_map]
  have : ∀ s ∈ l, (fun t => (⟨t⟩ : String)) (String.toList s) = s := by
    intro s _
    exact mk_toList s
  calc (l.map fun s => (⟨s.toList⟩ : String)) = l.map id := List.map_congr_left this
    _ = l := List.map_id l

theorem pySplit_joinWords (outs : List String) (hne : outs ≠ [])
    (h : ∀ s ∈ outs, CanonTok s) :
    pySplit (joinWords outs) = outs := by
  unfold pySplit joinWords
  rw [show (⟨joinChars (outs.map String.toList)⟩ : String).toList =
      joinChars (outs.map String.toList) from rfl]
  rw [splitWs_joinChars (outs.map String.toList) (by simpa using hne)]
  · exact map_mk_toList outs
  · intro t ht
    rcases List.mem_map.mp ht with ⟨s, hs, rfl⟩
    exact ⟨toList_ne_nil s (h s hs).1, fun c hc => ((h s hs).2 c hc).1⟩

theorem pyLower_joinWords (outs : List String) (h : ∀ s ∈ outs, CanonTok s) :
    pyLower (joinWords outs) = joinWords outs := by
  unfold pyLower
  rw [map_toLower_canon, mk_toList]
  intro c hc
  rcases mem_joinChars _ c hc with rfl | ⟨t, ht, hct⟩
  · rfl
  · rcases List.mem_map.mp ht with ⟨s, hs, rfl⟩
    exact ((h s hs).2 c hct).2

end NormLemmas

section DBLemmas

theorem add_ok_iff (env : NormEnv) (st : DBState) (name ty : String) :
    (∃ st2, add_ingredient env st name ty = .ok st2) ↔
      ¬∃ p ∈ st.ingredients, p.2 = (normalize_name env name true).1 := by
  unfold add_ingredient
  cases hf : st.ingredients.find?
      (fun p => p.2 == (normalize_name env name true).1) with
  | some q =>
    constructor
    · rintro ⟨st2, h⟩; cases h
    · intro hno
      exfalso
      apply hno
      exact ⟨q, List.mem_of_find?_eq_some hf, by simpa using List.find?_some hf⟩
  | none =>
    constructor
    · rintro - ⟨p, hp, hpe⟩
      have h1 := List.find?_eq_none.mp hf p hp
      simp only [beq_iff_eq] at h1
      exact h1 hpe
    · intro _
      exact ⟨_, rfl⟩

theorem add_ok_state (env : NormEnv) (st : DBState) (name ty : String)
    (st2 : DBState) (h : add_ingredient env st name ty = .ok st2) :
    st2.ingredients =
        st.ingredients ++ [(st.nextId, (normalize_name env name true).1)] ∧
      ∀ p ∈ st.ingredients, p.2 ≠ (normalize_name env name true).1 := by
  unfold add_ingredient at h
  cases hf : st.ingredients.find?
      (fun p => p.2 == (normalize_name env name true).1) with
  | some q => rw [hf] at h; cases h
  | none =>
    rw [hf] at h
    injection h with h
    constructor
    · rw [← h]
    · intro p hp
      have h1 := List.find?_eq_none.mp hf p hp
      simpa using h1

theorem add_preserves_nodup (env : NormEnv) (st : DBState) (name ty : String)
    (st2 : DBState) (hnames : (st.ingredients.map Prod.snd).Nodup)
    (h : add_ingredient env st name ty = .ok st2) :
    (st2.ingredients.map Prod.snd).Nodup := by
  rcases add_ok_state env st name ty st2 h with ⟨hst, hnone⟩
  rw [hst, List.map_append, List.nodup_append]
  refine ⟨hnames, by simp, ?_⟩
  intro a ha hb
  rcases List.mem_map.mp ha with ⟨p, hp, rfl⟩
  simp only [List.map_cons, List.map_nil, List.mem_singleton] at hb
  exact hnone p hp hb

theorem update_ok_state (env : NormEnv) (st : DBState) (iid : Nat)
    (nn : String) (st2 : DBState)
    (h : update_ingredient env st iid nn = .ok st2) :
    st2.ingredients = st.ingredients.map
        (fun p => if p.1 = iid then (p.1, (normalize_name env nn true).1) else p) ∧
      ∀ p ∈ st.ingredients,
        ¬(p.2 = (normalize_name env nn true).1 ∧ p.1 ≠ iid) := by
  unfold update_ingredient at h
  cases h1 : st.ingredients.find? (fun p => p.1 == iid) with
  | none => rw [h1] at h; cases h
  | some p0 =>
    rw [h1] at h
    cases h2 : st.ingredients.find? (fun p =>
        p.2 == (normalize_name env nn true).1 && p.1 != iid) with
    | some q => rw [h2] at h; cases h
    | none =>
      rw [h2] at h
      injection h with h
      constructor
      · rw [← h]
      · intro p hp
        have h3 := List.find?_eq_none.mp h2 p hp
        simpa using h3

theorem update_preserves_nodup (env : NormEnv) (st : DBState) (iid : Nat)
    (nn : String) (st2 : DBState)
    (hnames : (st.ingredients.map Prod.snd).Nodup)
    (hids : (st.ingredients.map Prod.fst).Nodup)
    (h : update_ingredient env st iid nn = .ok st2) :
    (st2.ingredients.map Prod.snd).Nodup := by
  rcases update_ok_state env st iid nn st2 h with ⟨hst, hnone⟩
  rw [hst, List.map_map]
  have hp1 : st.ingredients.Pairwise (fun a b => a.2 ≠ b.2) :=
    List.pairwise_map.mp hnames
  have hp2 : st.ingredients.Pairwise (fun a b => a.1 ≠ b.1) :=
    List.pairwise_map.mp hids
  have hcomb := hp1.and hp2
  have hgoal : List.Pairwise (fun a b : Nat × String =>
      (if a.1 = iid then (a.1, (normalize_name env nn true).1) else a).2 ≠
      (if b.1 = iid then (b.1, (normalize_name env nn true).1) else b).2)
      st.ingredients := by
    refine List.Pairwise.imp_of_mem ?_ hcomb
    intro a b ha hb hab
    rcases hab with ⟨hsne, hfne⟩
    by_cases ha1 : a.1 = iid <;> by_cases hb1 : b.1 = iid
    · exact absurd (ha1.trans hb1.symm) hfne
    · rw [if_pos ha1, if_neg hb1]
      intro hcon
      exact (hnone b hb) ⟨hcon.symm, hb1⟩
    · rw [if_neg ha1, if_pos hb1]
      intro hcon
      exact (hnone a ha) ⟨hcon, ha1⟩
    · rw [if_neg ha1, if_neg hb1]
      exact hsne
  exact List.pairwise_map.mpr hgoal

end DBLemmas

section NormalizeRed

theorem normalize_ne_red (env : NormEnv) (name : String) (check : Bool)
    (h0 : name ≠ "") :
    normalize_name env name check =
      (joinWords ((pySplit (pyStrip (pyLower name))).map
          (fun w => (singularize_word env w check).1)),
        ((pySplit (pyStrip (pyLower name))).map
          (fun w => (singularize_word env w check).2)).flatten) := by
  unfold normalize_name
  rw [if_neg h0]
  show (joinWords (((pySplit (pyStrip (pyLower name))).map
        (fun w => singularize_word env w check)).map Prod.fst),
      (((pySplit (pyStrip (pyLower name))).map
        (fun w => singularize_word env w check)).map Prod.snd).flatten) = _
  rw [List.map_map, List.map_map]
  rfl

theorem normalize_all_ws (env : NormEnv) (check : Bool) (s : String)
    (hs : s ≠ "") (hws : ∀ c ∈ s.toList, c.isWhitespace = true) :
    normalize_name env s check = ("", []) := by
  have hchars : ∀ c ∈ (pyLower s).toList, c.isWhitespace = true := by
    intro c hc
    have hc2 : c ∈ s.toList.map Char.toLower := hc
    rcases List.mem_map.mp hc2 with ⟨d, hd, rfl⟩
    rw [toLower_ws]
    exact hws d hd
  have hwords : pySplit (pyStrip (pyLower s)) = [] := by
    rw [pySplit_strip]
    unfold pySplit
    rw [splitWs_all_ws _ hchars]
    rfl
  rw [normalize_ne_red env s check hs, hwords]
  rfl

end NormalizeRed

section Claims

/-- C1: for every catalog and comma-delimited query, if some trimmed term
matches neither an exact ingredient name nor an ingredient-type name, the
ingredient-set recipe search raises a single validation error whose term list
is nonempty and contains exactly the unresolved terms — every failure is
collected and reported together, none is silently dropped. -/
theorem search_unresolved_terms_error (cat : Catalog) (query : String)
    (m : Nat) (h : ∃ t ∈ normTermsOf query, resolveTerm cat t = none) :
    ∃ errs, search_recipes_by_ingredients_exact cat query m = .error errs ∧
      errs ≠ [] ∧
      ∀ t, t ∈ errs ↔ t ∈ normTermsOf query ∧ resolveTerm cat t = none := by
  rcases h with ⟨t0, ht0, hres⟩
  have hne : normTermsOf query ≠ [] := by
    intro hc; rw [hc] at ht0; cases ht0
  have ht0f : t0 ∈ (normTermsOf query).filter
      (fun t => (resolveTerm cat t).isNone) :=
    List.mem_filter.mpr ⟨ht0, by simp [hres]⟩
  have hfne : (normTermsOf query).filter
      (fun t => (resolveTerm cat t).isNone) ≠ [] := by
    intro hc; rw [hc] at ht0f; cases ht0f
  refine ⟨_, ?_, hfne, ?_⟩
  · unfold search_recipes_by_ingredients_exact
    rw [if_neg hne, if_pos hfne]
  · intro t
    rw [List.mem_filter]
    simp [Option.isNone_iff_eq_none]

theorem search_unresolved_terms_error_witness :
    (∃ t ∈ normTermsOf "tomato, zzz", resolveTerm catW t = none) ∧
      ∃ errs, search_recipes_by_ingredients_exact catW "tomato, zzz" 1 =
          .error errs ∧ errs ≠ [] ∧
        ∀ t, t ∈ errs ↔ t ∈ normTermsOf "tomato, zzz" ∧
          resolveTerm catW t = none :=
  ⟨by decide, search_unresolved_terms_error catW "tomato, zzz" 1 (by decide)⟩

/-- C2: for every query, candidate set and threshold, every pair returned by
the similarity matchers `find_similar_ingredients` and `find_similar_recipes`
has score at least the threshold, every score lies in [0, 100] whenever the
external scorer maps into [0, 100], and the returned list is sorted by score
descending. -/
theorem find_similar_scores_bounded_sorted (scorer : String → String → ℚ)
    (ingredients recipes : List (Nat × String)) (q : String) (t : ℚ)
    (hs : ∀ a b, 0 ≤ scorer a b ∧ scorer a b ≤ 100) :
    (∀ pr ∈ find_similar_ingredients scorer ingredients q t,
        t ≤ pr.2 ∧ 0 ≤ pr.2 ∧ pr.2 ≤ 100) ∧
      (find_similar_ingredients scorer ingredients q t).Pairwise
        (fun a b => b.2 ≤ a.2) ∧
      (∀ pr ∈ find_similar_recipes scorer recipes q t,
        t ≤ pr.2 ∧ 0 ≤ pr.2 ∧ pr.2 ≤ 100) ∧
      (find_similar_recipes scorer recipes q t).Pairwise
        (fun a b => b.2 ≤ a.2) := by
  have hcore : ∀ (rows : List (Nat × String)) (q2 : String),
      ∀ pr ∈ simFilter scorer rows q2 t, t ≤ pr.2 ∧ 0 ≤ pr.2 ∧ pr.2 ≤ 100 := by
    intro rows q2 pr hpr
    rcases simFilter_mem scorer rows q2 t hpr with ⟨hle, nm, hnm⟩
    exact ⟨hle, by rw [hnm]; exact (hs q2 nm).1,
      by rw [hnm]; exact (hs q2 nm).2⟩
  refine ⟨?_, ?_, ?_, ?_⟩
  · intro pr hpr
    unfold find_similar_ingredients at hpr
    by_cases hrows : ingredients = []
    · rw [if_pos hrows] at hpr; cases hpr
    · rw [if_neg hrows] at hpr
      exact hcore ingredients (pyLower q) pr hpr
  · unfold find_similar_ingredients
    by_cases hrows : ingredients = []
    · rw [if_pos hrows]; simp
    · rw [if_neg hrows]
      exact simFilter_pairwise scorer ingredients (pyLower q) t
  · intro pr hpr
    unfold find_similar_recipes at hpr
    by_cases hrows : recipes = []
    · rw [if_pos hrows] at hpr; cases hpr
    · rw [if_neg hrows] at hpr
      exact hcore recipes q pr hpr
  · unfold find_similar_recipes
    by_cases hrows : recipes = []
    · rw [if_pos hrows]; simp
    · rw [if_neg hrows]
      exact simFilter_pairwise scorer recipes q t

theorem constScorer_range :
    ∀ a b : String, 0 ≤ constScorer a b ∧ constScorer a b ≤ 100 := by
  intro a b
  unfold constScorer
  norm_num

theorem find_similar_scores_bounded_sorted_witness :
    (∀ a b : String, 0 ≤ constScorer a b ∧ constScorer a b ≤ 100) ∧
      ∀ pr ∈ find_similar_ingredients constScorer [(1, "tomato")] "tomato" 50,
        50 ≤ pr.2 ∧ 0 ≤ pr.2 ∧ pr.2 ≤ 100 :=
  ⟨constScorer_range,
    (find_similar_scores_bounded_sorted constScorer [(1, "tomato")]
      [(2, "soup")] "tomato" 50 constScorer_range).1⟩

/-- C3: normalization is idempotent — for every name, normalizing the
canonical output of `normalize_name` yields the same canonical string —
under the `EnvOK` contracts axiomatizing the external spell checker,
lemmatizer and inflect engine by their documented behavior. -/
theorem normalize_name_idempotent (env : NormEnv) (hok : EnvOK env)
    (name : String) :
    (normalize_name env ((normalize_name env name true).1) true).1 =
      (normalize_name env name true).1 := by
  by_cases h0 : name = ""
  · subst h0
    rfl
  · rw [normalize_red env name h0]
    have hcanon : ∀ w ∈ pySplit (pyStrip (pyLower name)), CanonTok w :=
      pySplit_canon name
    rcases hsplit : pySplit (pyStrip (pyLower name)) with _ | ⟨w0, ws⟩
    · rfl
    · rw [hsplit] at hcanon
      have houts2 : ∀ s ∈ (w0 :: ws).map
          (fun w => (singularize_word env w true).1),
          CanonTok s ∧ (singularize_word env s true).1 = s := by
        intro s hs
        rcases List.mem_map.mp hs with ⟨w, hw, rfl⟩
        have hf := sing_fix env hok w (hcanon w hw)
        exact ⟨hf.1, hf.2⟩
      generalize houts : (w0 :: ws).map
        (fun w => (singularize_word env w true).1) = outs at houts2
      have houtne : outs ≠ [] := by
        rw [← houts]; simp
      have hjne : joinWords outs ≠ "" := by
        intro hcon
        apply joinChars_ne_nil (outs.map String.toList) (by simpa using houtne)
          (fun t ht => by
            rcases List.mem_map.mp ht with ⟨u, hu, rfl⟩
            exact toList_ne_nil u (houts2 u hu).1.1)
        exact congrArg String.toList hcon
      rw [normalize_red env (joinWords outs) hjne]
      rw [pyLower_joinWords outs (fun u hu => (houts2 u hu).1)]
      rw [pySplit_strip, pySplit_joinWords outs houtne
        (fun u hu => (houts2 u hu).1)]
      congr 1
      calc outs.map (fun w => (singularize_word env w true).1)
          = outs.map id := List.map_congr_left (fun u hu => (houts2 u hu).2)
        _ = outs := List.map_id outs

theorem envIdem_ok : EnvOK envIdem := by
  constructor
  · intro w hw
    rcases List.mem_cons.mp hw with rfl | hw2
    · exact (by decide)
    rcases List.mem_cons.mp hw2 with rfl | hw3
    · exact (by decide)
    · cases hw3
  · intro w c hc
    simp [envIdem] at hc
  · intro w l h
    simp [envIdem] at h
  · intro w l h
    simp [envIdem] at h
  · intro w t h
    simp only [envIdem] at h
    split at h
    · injection h with h
      subst h
      exact (by decide)
    · cases h
  · intro w t h
    simp only [envIdem] at h
    split at h
    · injection h with h
      subst h
      show envIdem.inflectSingular "tomato" = none
      decide
    · cases h
  · intro w l h
    simp [envIdem] at h
  · intro w t h l2 h2
    simp [envIdem] at h2

theorem normalize_name_idempotent_witness :
    EnvOK envIdem ∧
      (normalize_name envIdem
          ((normalize_name envIdem "Red Tomatoes" true).1) true).1 =
        (normalize_name envIdem "Red Tomatoes" true).1 :=
  ⟨envIdem_ok, normalize_name_idempotent envIdem envIdem_ok "Red Tomatoes"⟩

/-- C4: contrary to the claim (and to the code comment "At least threshold%
similar (before bonus)"), `singularize_word` compares the post-bonus score
against the threshold: with the dictionary suggesting "abd" for "abc",
`fuzz.ratio` is 200/3 < 70, yet 200/3 + 5 ≥ 70 makes the code rewrite "abc"
to "abd" and record a correction. -/
theorem spell_correction_post_bonus_threshold :
    fuzzSim "abc" "abd" < 70 ∧ (70 : ℚ) ≤ fuzzSim "abc" "abd" + 5 ∧
      envBonus.threshold = 70 ∧
      singularize_word envBonus "abc" true = ("abd", [("abc", "abd")]) := by
  have hfz : fuzzSim "abc" "abd" = 200 / 3 := by
    unfold fuzzSim
    rw [if_neg (by decide),
      show lcsLen "abc".toList "abd".toList = 2 from by decide,
      show "abc".toList.length = 3 from rfl,
      show "abd".toList.length = 3 from rfl]
    norm_num
  refine ⟨by rw [hfz]; norm_num, by rw [hfz]; norm_num, rfl, ?_⟩
  have hred := singularize_red envBonus "abc" (by decide)
  have hsc : scoreCands envBonus "abc" (envBonus.candidates "abc") =
      [("abd", fuzzSim "abc" "abd" + 5)] := rfl
  have hcorr : corrStep envBonus "abc" = ("abd", [("abc", "abd")]) := by
    rw [corrStep_top_eq envBonus "abc" "abd" (fuzzSim "abc" "abd" + 5) []
      (by decide) (by decide) hsc]
    rw [if_pos (show envBonus.threshold ≤ fuzzSim "abc" "abd" + 5 from by
      show (70 : ℚ) ≤ fuzzSim "abc" "abd" + 5
      rw [hfz]; norm_num)]
    rw [if_neg (by decide)]
  rw [hred, hcorr]
  show (postCorr envBonus "abd", [("abc", "abd")]) = ("abd", [("abc", "abd")])
  rw [show postCorr envBonus "abd" = "abd" from by decide]

/-- C5 counterexample: with "tomato paste" in the catalog, adding
"tomato pasta" — whose name scores 275/3 ≥ 80 against the existing name but
normalizes differently — silently creates the new ingredient; no
disambiguation step exists anywhere in the add path. -/
theorem add_near_duplicate_no_disambiguation_cex :
    (80 : ℚ) ≤ fuzzSim "tomato paste" "tomato pasta" ∧
      (1, "tomato paste") ∈ stDup.ingredients ∧
      add_ingredient envDup stDup "tomato pasta" "vegetable" =
        .ok ⟨[(1, "tomato paste"), (2, "tomato pasta")], ["vegetable"], 3⟩ := by
  refine ⟨?_, by decide, by decide⟩
  unfold fuzzSim
  rw [if_neg (by decide),
    show lcsLen "tomato paste".toList "tomato pasta".toList = 11 from by decide,
    show "tomato paste".toList.length = 12 from rfl,
    show "tomato pasta".toList.length = 12 from rfl]
  norm_num

/-- C5 amended: `add_ingredient` performs no similarity-based duplicate
detection and never invokes a disambiguator — an add succeeds exactly when no
existing ingredient carries the same normalized name (otherwise it raises an
error naming the existing entry), and a successful add just appends the
normalized name, regardless of any similarity score. -/
theorem add_ingredient_exact_match_only (env : NormEnv) (st : DBState)
    (name ty : String) :
    ((∃ st2, add_ingredient env st name ty = .ok st2) ↔
        ¬∃ p ∈ st.ingredients, p.2 = (normalize_name env name true).1) ∧
      ∀ st2, add_ingredient env st name ty = .ok st2 →
        st2.ingredients =
          st.ingredients ++ [(st.nextId, (normalize_name env name true).1)] :=
  ⟨add_ok_iff env st name ty,
    fun st2 h => (add_ok_state env st name ty st2 h).1⟩

theorem add_ingredient_exact_match_only_witness :
    (add_ingredient envDup stDup "tomato pasta" "vegetable" =
        .ok ⟨[(1, "tomato paste"), (2, "tomato pasta")], ["vegetable"], 3⟩) ∧
      (⟨[(1, "tomato paste"), (2, "tomato pasta")], ["vegetable"], 3⟩ :
          DBState).ingredients =
        stDup.ingredients ++
          [(2, (normalize_name envDup "tomato pasta" true).1)] :=
  ⟨by decide,
    (add_ingredient_exact_match_only envDup stDup "tomato pasta"
      "vegetable").2 _ (by decide)⟩

/-- C6: for every catalog and resolvable query, the ingredient-set search
returns exactly the recipes whose distinct-term satisfaction count reaches
`min_matches`, each paired with that count, sorted by count descending, and
recipes with equal counts retain their original catalog iteration order. -/
theorem search_count_rank_stable (cat : Catalog) (query : String) (m : Nat)
    (hne : normTermsOf query ≠ [])
    (hres : ∀ t ∈ normTermsOf query, resolveTerm cat t ≠ none) :
    ∃ l, search_recipes_by_ingredients_exact cat query m = .ok l ∧
      l.Pairwise (fun a b => b.2 ≤ a.2) ∧
      (∀ pr ∈ l, m ≤ pr.2 ∧
        ∃ r ∈ cat.recipes, pr = (r.rid, satCount cat (normTermsOf query) r)) ∧
      (∀ r ∈ cat.recipes, m ≤ satCount cat (normTermsOf query) r →
        (r.rid, satCount cat (normTermsOf query) r) ∈ l) ∧
      ∀ c, l.filter (fun p => decide (p.2 = c)) =
        ((cat.recipes.map
            (fun r => (r.rid, satCount cat (normTermsOf query) r))).filter
          (fun p => m ≤ p.2)).filter (fun p => decide (p.2 = c)) := by
  have hfil : (normTermsOf query).filter
      (fun t => (resolveTerm cat t).isNone) = [] := by
    rw [List.filter_eq_nil_iff]
    intro t ht
    simp only [Option.isNone_iff_eq_none]
    simpa using hres t ht
  refine ⟨sortByDesc Prod.snd
      ((cat.recipes.map
          (fun r => (r.rid, satCount cat (normTermsOf query) r))).filter
        (fun p => m ≤ p.2)), ?_, sortByDesc_pairwise _ _, ?_, ?_,
      fun c => sortByDesc_filter_key _ _ c⟩
  · unfold search_recipes_by_ingredients_exact
    rw [if_neg hne, if_neg (by simp [hfil])]
  · intro pr hpr
    have hm := (sortByDesc_perm _ _).mem_iff.mp hpr
    have hm2 := List.mem_filter.mp hm
    rcases List.mem_map.mp hm2.1 with ⟨r, hr, rfl⟩
    exact ⟨by simpa using hm2.2, r, hr, rfl⟩
  · intro r hr hc
    apply (sortByDesc_perm _ _).mem_iff.mpr
    exact List.mem_filter.mpr ⟨List.mem_map_of_mem _ hr, by simpa using hc⟩

theorem search_count_rank_stable_witness :
    (normTermsOf "tomato, basil" ≠ [] ∧
        ∀ t ∈ normTermsOf "tomato, basil", resolveTerm catW t ≠ none) ∧
      ∃ l, search_recipes_by_ingredients_exact catW "tomato, basil" 1 =
        .ok l :=
  ⟨⟨by decide, by decide⟩,
    (search_count_rank_stable catW "tomato, basil" 1 (by decide)
      (by decide)).elim (fun l hl => ⟨l, hl.1⟩)⟩

/-- C7: canonical-name uniqueness is preserved by the ingredient write
operations — when no two rows share a name (and ids are distinct),
`add_ingredient` and `update_ingredient` keep it so — and the uniqueness
check is performed on the normalized name, not the raw input. -/
theorem canonical_name_uniqueness_preserved (env : NormEnv) (st : DBState)
    (name ty nn : String) (iid : Nat)
    (hnames : (st.ingredients.map Prod.snd).Nodup)
    (hids : (st.ingredients.map Prod.fst).Nodup) :
    (∀ st2, add_ingredient env st name ty = .ok st2 →
        (st2.ingredients.map Prod.snd).Nodup) ∧
      (∀ st2, update_ingredient env st iid nn = .ok st2 →
        (st2.ingredients.map Prod.snd).Nodup) ∧
      ((∃ st2, add_ingredient env st name ty = .ok st2) ↔
        ¬∃ p ∈ st.ingredients, p.2 = (normalize_name env name true).1) :=
  ⟨fun st2 h => add_preserves_nodup env st name ty st2 hnames h,
    fun st2 h => update_preserves_nodup env st iid nn st2 hnames hids h,
    add_ok_iff env st name ty⟩

theorem canonical_name_uniqueness_preserved_witness :
    ((stUniq.ingredients.map Prod.snd).Nodup ∧
        (stUniq.ingredients.map Prod.fst).Nodup) ∧
      ((∃ st2, add_ingredient envPass stUniq "basil" "x" = .ok st2) ↔
        ¬∃ p ∈ stUniq.ingredients,
          p.2 = (normalize_name envPass "basil" true).1) :=
  ⟨⟨by decide, by decide⟩,
    (canonical_name_uniqueness_preserved envPass stUniq "basil" "x" "leek" 1
      (by decide) (by decide)).2.2⟩

/-- C8 counterexample: on the whitespace-only input " ", `normalize_name`
returns the empty string with no corrections — not the input unchanged as
the claim states. -/
theorem normalize_whitespace_not_unchanged_cex :
    normalize_name envPass " " true = ("", []) ∧
      normalize_name envPass " " true ≠ (" ", []) :=
  ⟨by decide, by decide⟩

/-- C8 amended: `normalize_name` returns the empty input unchanged with an
empty corrections list; a nonempty whitespace-only input yields the empty
string with an empty corrections list; in both cases a (name, corrections)
pair is always returned. -/
theorem normalize_empty_whitespace_behavior (env : NormEnv) (check : Bool)
    (s : String) :
    normalize_name env "" check = ("", []) ∧
      (s ≠ "" → (∀ c ∈ s.toList, c.isWhitespace = true) →
        normalize_name env s check = ("", [])) :=
  ⟨rfl, fun hs hws => normalize_all_ws env check s hs hws⟩

theorem normalize_empty_whitespace_behavior_witness :
    ((" " : String) ≠ "" ∧ ∀ c ∈ (" " : String).toList,
        c.isWhitespace = true) ∧
      normalize_name envPass " " true = ("", []) :=
  ⟨⟨by decide, by decide⟩,
    (normalize_empty_whitespace_behavior envPass true " ").2 (by decide)
      (by decide)⟩

/-- C9: `find_similar_ingredients` and `find_similar_recipes` return at most
5 results for every database state, query and threshold, because candidate
extraction is capped at limit 5 before threshold filtering. -/
theorem find_similar_at_most_five (scorer : String → String → ℚ)
    (ingredients recipes : List (Nat × String)) (q : String) (t : ℚ) :
    (find_similar_ingredients scorer ingredients q t).length ≤ 5 ∧
      (find_similar_recipes scorer recipes q t).length ≤ 5 := by
  constructor
  · unfold find_similar_ingredients
    by_cases h : ingredients = []
    · rw [if_pos h]; simp
    · rw [if_neg h]
      exact simFilter_length scorer ingredients (pyLower q) t
  · unfold find_similar_recipes
    by_cases h : recipes = []
    · rw [if_pos h]; simp
    · rw [if_neg h]
      exact simFilter_length scorer recipes q t

/-- C10: ingredient-type names are only lowercased before the uniqueness
lookup — never spell-corrected or singularized — so creating types
"vegetables" and "vegetable" yields two distinct rows, whereas the same two
strings used as ingredient names normalize to the same canonical name and
the second add is rejected. -/
theorem ingredient_type_lowercase_only :
    (∀ (types : List String) (tn : String),
        (get_or_create_ingredient_type types tn).2 = pyLower tn) ∧
      get_or_create_ingredient_type
          (get_or_create_ingredient_type [] "vegetables").1 "vegetable" =
        (["vegetables", "vegetable"], "vegetable") ∧
      (normalize_name envVeg "vegetables" true).1 = "vegetable" ∧
      (normalize_name envVeg "vegetable" true).1 = "vegetable" ∧
      ∃ e, add_ingredient envVeg ⟨[(1, "vegetable")], [], 2⟩ "vegetables" "x" =
        .error e := by
  refine ⟨?_, by decide, by decide, by decide,
    ⟨"Ingredient vegetables already exists (as vegetable)", by decide⟩⟩
  intro types tn
  unfold get_or_create_ingredient_type
  cases hf : types.find? (fun t => t == pyLower tn) with
  | some t =>
    have ht := List.find?_some hf
    simpa using ht
  | none => rfl

end Claims

end Cookbook
